import Mathlib

/-!
Verification of the cross-media recommender (UGAHacksProject).

This file is a shallow embedding of the core of the repository:
`ML/models/tag_encoder.py` (the weighted text encoder), `ML/models/recommender.py`
(title lookup, the brute-force cosine nearest-neighbor query, grouped
recommendation, index persistence) and the index-loading logic of
`streamlit_app.py`.  Catalog items are Python dictionaries, so every field is
modelled as optional; the external sentence-embedding model is abstracted as an
arbitrary function `String → List ℚ`, and floating-point vectors are modelled
over `ℚ`.  Fallible code (`tag["name"]`, list indexing) returns `Option` /
an explicit error outcome.
-/

/- Batteries marks `Rat` arithmetic `@[irreducible]`, which blocks kernel
evaluation of concrete instances; restore reducibility so closed theorems about
concrete catalogs can be settled by `decide`. -/
set_option allowUnsafeReducibility true in
attribute [semireducible] Rat.sub Rat.add Rat.mul

/-- A tag dictionary from the catalog.  In `TagEncoder.encode` the source reads
`tag["name"]` (raising `KeyError` when absent), `tag.get("rank", 50)` and
`tag.get("description", "")`, so each key is modelled as optional. -/
structure MTag where
  name : Option String
  rank : Option Int
  description : Option String
deriving DecidableEq

/-- The `title` field of an item: absent, a plain string, or an AniList-style
dictionary with optional `english` and `romaji` entries
(cf. `MediaRecommender._get_title`). -/
inductive TitleVal where
  | missing : TitleVal
  | plain : String → TitleVal
  | dict : Option String → Option String → TitleVal
deriving DecidableEq

/-- One catalog item, as the dictionaries consumed by `TagEncoder.encode` and
`MediaRecommender`: every field may be absent (`item.get(...)` in the source). -/
structure MediaItem where
  title : TitleVal
  media_type : Option String
  description : Option String
  genres : Option (List String)
  tags : Option (List MTag)
  keywords : Option (List String)
deriving DecidableEq

/-- Splits a character list at the first `'>'`: returns the characters strictly
before it and the characters strictly after it, or `none` when no `'>'` occurs. -/
def splitAtGt : List Char → Option (List Char × List Char)
  | [] => none
  | c :: rest =>
    if c = '>' then some ([], rest)
    else
      match splitAtGt rest with
      | none => none
      | some (run, tl) => some (c :: run, tl)

theorem splitAtGt_tail_lt :
    ∀ (l run tl : List Char), splitAtGt l = some (run, tl) → tl.length < l.length := by
  intro l
  induction l with
  | nil => intro run tl h; simp [splitAtGt] at h
  | cons c rest ih =>
    intro run tl h
    by_cases hc : c = '>'
    · simp only [splitAtGt, if_pos hc, Option.some.injEq, Prod.mk.injEq] at h
      obtain ⟨h1, h2⟩ := h
      subst h2
      simp only [List.length_cons]
      omega
    · simp only [splitAtGt, if_neg hc] at h
      cases hrec : splitAtGt rest with
      | none => rw [hrec] at h; cases h
      | some p =>
        rw [hrec] at h
        obtain ⟨run2, tl2⟩ := p
        simp only [Option.some.injEq, Prod.mk.injEq] at h
        obtain ⟨h1, h2⟩ := h
        subst h2
        have h3 := ih run2 tl2 hrec
        simp only [List.length_cons]
        omega

/-- `re.sub(r'<[^>]+>', '', s)` on the character list: scanning left to right,
at each `'<'` a maximal nonempty run of non-`'>'` characters followed by `'>'`
is deleted; every other character (and any unmatched `'<'`) is kept. -/
def stripHtmlChars : List Char → List Char
  | [] => []
  | c :: rest =>
    if c = '<' then
      match hgt : splitAtGt rest with
      | some (run, tl) =>
        if run.isEmpty then c :: stripHtmlChars rest
        else stripHtmlChars tl
      | none => c :: stripHtmlChars rest
    else c :: stripHtmlChars rest
termination_by l => l.length
decreasing_by
  all_goals
    first
      | (simp only [List.length_cons]; omega)
      | (have h4 := splitAtGt_tail_lt rest run tl hgt
         simp only [List.length_cons]
         omega)

/-- The body of the tag loop of `TagEncoder.encode`: `name = tag["name"]`
(failing when the key is absent), `rank = tag.get("rank", 50)`,
`desc = tag.get("description", "")`, then the rank-tiered repetition. -/
def tagLoopParts (tag : MTag) : Option (List String) :=
  match tag.name with
  | none => none
  | some name =>
    let rank := tag.rank.getD 50
    let desc := tag.description.getD ""
    if rank ≥ 80 then some [name, name, name, desc]
    else if rank ≥ 60 then some [name, name]
    else some [name]

/-- The tag loop of `TagEncoder.encode` over the whole `tags` list, collecting
the appended parts; `none` as soon as one tag lacks its `name` key. -/
def encodeTags : List MTag → Option (List String)
  | [] => some []
  | t :: ts =>
    match tagLoopParts t, encodeTags ts with
    | some p, some ps => some (p ++ ps)
    | _, _ => none

/-- `TagEncoder.encode`: genres doubled, rank-weighted tags, keywords doubled,
then the HTML-stripped description truncated to its first 200 characters when
nonempty, all joined with `" . "`.  Returns `none` exactly when a tag lacks its
`name` key (the source raises `KeyError` there). -/
def encode (item : MediaItem) : Option String :=
  let genreParts := (item.genres.getD []).flatMap (fun g => [g, g])
  match encodeTags (item.tags.getD []) with
  | none => none
  | some tagParts =>
    let kwParts := (item.keywords.getD []).flatMap (fun kw => [kw, kw])
    let desc := item.description.getD ""
    let descParts :=
      if desc = "" then ([] : List String)
      else [((stripHtmlChars desc.toList).take 200).asString]
    some (String.intercalate " . " (genreParts ++ tagParts ++ kwParts ++ descParts))

/-- Modelled from the spec's rank-weighting words (§4.1 rule 2): rank ≥ 80 →
the name three times plus the description once; 60 ≤ rank < 80 → the name
twice; rank < 60 → the name once. -/
def tagContribSpec (name : String) (rank : Int) (desc : String) : List String :=
  if 80 ≤ rank then List.replicate 3 name ++ [desc]
  else if 60 ≤ rank ∧ rank < 80 then List.replicate 2 name
  else List.replicate 1 name

/-- Modelled from the spec (§4.1 rule 1): each genre contributes its name twice,
in the original genre order. -/
def specGenreTokens (item : MediaItem) : List String :=
  ((item.genres.getD []).map (fun g => List.replicate 2 g)).flatten

/-- Modelled from the spec (§4.1 rule 2): the concatenated rank-weighted tag
contributions, in the original tag order. -/
def specTagTokens (item : MediaItem) : List String :=
  (item.tags.getD []).flatMap
    (fun t => tagContribSpec (t.name.getD "") (t.rank.getD 50) (t.description.getD ""))

/-- Modelled from the spec (§4.1 rule 3): each keyword contributes its value
twice, in the original keyword order. -/
def specKeywordTokens (item : MediaItem) : List String :=
  ((item.keywords.getD []).map (fun kw => List.replicate 2 kw)).flatten

/-- Modelled from the spec (§4.1 rule 4): the description with markup stripped
and truncated to its first 200 characters, appended once; an absent or empty
description contributes nothing. -/
def specDescTokens (item : MediaItem) : List String :=
  if item.description.getD "" = "" then []
  else [((stripHtmlChars (item.description.getD "").toList).take 200).asString]

theorem tagLoopParts_spec (t : MTag) (n : String) (h : t.name = some n) :
    tagLoopParts t = some (tagContribSpec n (t.rank.getD 50) (t.description.getD "")) := by
  simp only [tagLoopParts, h, tagContribSpec]
  by_cases h80 : (80 : Int) ≤ t.rank.getD 50
  · simp [h80, ge_iff_le, List.replicate]
  · by_cases h60 : (60 : Int) ≤ t.rank.getD 50
    · have hlt : t.rank.getD 50 < 80 := by omega
      simp [h80, h60, hlt, ge_iff_le, List.replicate]
    · simp [h80, h60, ge_iff_le, List.replicate]

theorem encodeTags_spec (ts : List MTag) (h : ∀ t ∈ ts, t.name ≠ none) :
    encodeTags ts =
      some (ts.flatMap
        (fun t => tagContribSpec (t.name.getD "") (t.rank.getD 50) (t.description.getD ""))) := by
  induction ts with
  | nil => simp [encodeTags]
  | cons t ts ih =>
    have hname : t.name ≠ none := h t (by simp)
    cases hn : t.name with
    | none => exact absurd hn hname
    | some n =>
      have hrest := ih (fun t' ht' => h t' (by simp [ht']))
      rw [List.flatMap_cons]
      simp only [encodeTags, tagLoopParts_spec t n hn, hrest, hn, Option.getD_some]

/-- Python's falsy-aware `a or b` for an optional string: an absent or empty
first operand falls through to the second. -/
def orFalsy (a : Option String) (b : String) : String :=
  match a with
  | some s => if s = "" then b else s
  | none => b

/-- `MediaRecommender._get_title`: `item.get("title", "Unknown")`; a dictionary
title resolves `english or romaji or "Unknown"`, anything else is stringified. -/
def get_title (item : MediaItem) : String :=
  match item.title with
  | TitleVal.missing => "Unknown"
  | TitleVal.plain s => s
  | TitleVal.dict e r => orFalsy e (orFalsy r "Unknown")

/-- Python's `str.lower()`: character-wise lowercasing. -/
def strLower (s : String) : String := (s.toList.map Char.toLower).asString

/-- Python's `str.strip()`: whitespace removed from both ends. -/
def strTrim (s : String) : String :=
  (((s.toList.dropWhile Char.isWhitespace).reverse.dropWhile
    Char.isWhitespace).reverse).asString

/-- Python's `needle in hay` on strings: contiguous-substring containment. -/
def strContains (hay needle : String) : Bool := decide (needle.toList <:+: hay.toList)

/-- The `for i, item in enumerate(...)` search loop with early return: the
index (counting from `k`) of the first list element satisfying `p`. -/
def firstIdxFrom (p : MediaItem → Bool) : List MediaItem → Nat → Option Nat
  | [], _ => none
  | it :: rest, k => if p it then some k else firstIdxFrom p rest (k + 1)

/-- `MediaRecommender.find_item`: the query is lowercased and stripped, then an
exact-equality pass over lowercased resolved titles runs first, and only when
it fails a substring-containment pass runs; `none` when both fail. -/
def find_item (items : List MediaItem) (title : String) : Option Nat :=
  let tl := strTrim (strLower title)
  match firstIdxFrom (fun it => strLower (get_title it) == tl) items 0 with
  | some i => some i
  | none => firstIdxFrom (fun it => strContains (strLower (get_title it)) tl) items 0

/-- Modelled from the spec (§4.4): two-phase case-insensitive lookup — exact
equality of the resolved title with the query, then substring containment of
the query — with no whitespace stripping of the query. -/
def titleLookupClaim (items : List MediaItem) (q : String) : Option Nat :=
  match firstIdxFrom (fun it => strLower (get_title it) == strLower q) items 0 with
  | some i => some i
  | none =>
    firstIdxFrom (fun it => strContains (strLower (get_title it)) (strLower q)) items 0

/-- Dot product over `ℚ`, the model of the float dot product of unit-normalized
embedding vectors. -/
def dotQ (a b : List ℚ) : ℚ := (List.zipWith (fun x y => x * y) a b).sum

/-- Ascending distance with ties broken by ascending catalog index (nonstrict). -/
def distIdxLe (a b : Nat × ℚ) : Prop := a.2 < b.2 ∨ (a.2 = b.2 ∧ a.1 ≤ b.1)

instance : DecidableRel distIdxLe :=
  fun a b => inferInstanceAs (Decidable (a.2 < b.2 ∨ (a.2 = b.2 ∧ a.1 ≤ b.1)))

instance : IsTotal (Nat × ℚ) distIdxLe := by
  constructor
  intro a b
  unfold distIdxLe
  rcases lt_trichotomy a.2 b.2 with h | h | h
  · exact Or.inl (Or.inl h)
  · rcases Nat.le_total a.1 b.1 with h2 | h2
    · exact Or.inl (Or.inr ⟨h, h2⟩)
    · exact Or.inr (Or.inr ⟨h.symm, h2⟩)
  · exact Or.inr (Or.inl h)

instance : IsTrans (Nat × ℚ) distIdxLe := by
  constructor
  intro a b c hab hbc
  unfold distIdxLe at *
  rcases hab with h1 | ⟨h1, h1i⟩
  · rcases hbc with h2 | ⟨h2, h2i⟩
    · exact Or.inl (lt_trans h1 h2)
    · exact Or.inl (h2 ▸ h1)
  · rcases hbc with h2 | ⟨h2, h2i⟩
    · exact Or.inl (h1 ▸ h2)
    · exact Or.inr ⟨h1.trans h2, le_trans h1i h2i⟩

/-- The brute-force scan: one `(catalogIndex, 1 - dot x vᵢ)` pair per indexed
vector, in catalog order. -/
def neighborPairs (embs : List (List ℚ)) (x : List ℚ) : List (Nat × ℚ) :=
  (List.range embs.length).map (fun i => (i, 1 - dotQ x (embs.getD i [])))

/-- The model of the fitted index's `kneighbors` query (brute cosine metric):
all pairs sorted by ascending distance — ties by ascending catalog index, as
the spec fixes for determinism (§4.3); the external library leaves tie order
unspecified — with `k` capped at the indexed count, as every call site does via
`min` before calling. -/
def queryIndex (embs : List (List ℚ)) (x : List ℚ) (k : Nat) : List (Nat × ℚ) :=
  (List.insertionSort distIdxLe (neighborPairs embs x)).take (min k embs.length)

/-- The `results` dictionary of `MediaRecommender.recommend`: one ordered
bucket of `(item, similarity)` pairs per known media type. -/
structure Buckets where
  anime : List (MediaItem × ℚ)
  manga : List (MediaItem × ℚ)
  movie : List (MediaItem × ℚ)
deriving DecidableEq

/-- `if mtype in results and len(results[mtype]) < n_per_type: append`. -/
def addToBuckets (b : Buckets) (mtype : String) (item : MediaItem) (sim : ℚ)
    (nPerType : Nat) : Buckets :=
  if mtype = "anime" then
    if b.anime.length < nPerType then { b with anime := b.anime ++ [(item, sim)] } else b
  else if mtype = "manga" then
    if b.manga.length < nPerType then { b with manga := b.manga ++ [(item, sim)] } else b
  else if mtype = "movie" then
    if b.movie.length < nPerType then { b with movie := b.movie ++ [(item, sim)] } else b
  else b

/-- `all(len(v) >= n_per_type for v in results.values())`. -/
def bucketsDone (b : Buckets) (n : Nat) : Bool :=
  n ≤ b.anime.length && n ≤ b.manga.length && n ≤ b.movie.length

/-- The neighbor-grouping loop of `MediaRecommender.recommend`: the source
index is skipped with `continue` (which also skips the early-stop check),
`self.items[i]` may raise (`none` models the `IndexError`), and the loop breaks
once every bucket is full. -/
def groupLoop (items : List MediaItem) (idx : Nat) (nPerType : Nat) :
    List (Nat × ℚ) → Buckets → Option Buckets
  | [], b => some b
  | (i, dist) :: rest, b =>
    if i = idx then groupLoop items idx nPerType rest b
    else
      match items.get? i with
      | none => none
      | some item =>
        let b2 := addToBuckets b (item.media_type.getD "unknown") item (1 - dist) nPerType
        if bucketsDone b2 nPerType then some b2
        else groupLoop items idx nPerType rest b2

/-- The grouped dictionary returned by `MediaRecommender.recommend`. -/
structure RecResult where
  source : MediaItem
  anime : List (MediaItem × ℚ)
  manga : List (MediaItem × ℚ)
  movie : List (MediaItem × ℚ)
deriving DecidableEq

/-- Outcome of `MediaRecommender.recommend`: `notFound` models the
`return None` path, `err` an uncaught Python exception (out-of-range indexing
against a mismatched index), `ok` the returned dictionary. -/
inductive RecOutcome where
  | notFound : RecOutcome
  | err : RecOutcome
  | ok : RecResult → RecOutcome
deriving DecidableEq

/-- The `MediaRecommender` state: the ordered catalog plus the fitted index's
vector array (the kNN object is determined by the array, since every
`kneighbors` call passes `n_neighbors` explicitly). -/
structure Recommender where
  items : List MediaItem
  embeddings : List (List ℚ)
deriving DecidableEq

/-- `MediaRecommender.recommend(title, n_per_type)`: resolve the title, read
the source row and its embedding, query `min(len(items), 200)` neighbors, and
group them by media type. -/
def recommend (rec : Recommender) (title : String) (nPerType : Nat) : RecOutcome :=
  match find_item rec.items title with
  | none => RecOutcome.notFound
  | some idx =>
    match rec.items.get? idx, rec.embeddings.get? idx with
    | some source, some x =>
      let nQuery := min rec.items.length 200
      let neighbors := queryIndex rec.embeddings x nQuery
      match groupLoop rec.items idx nPerType neighbors ⟨[], [], []⟩ with
      | none => RecOutcome.err
      | some b => RecOutcome.ok ⟨source, b.anime, b.manga, b.movie⟩
    | _, _ => RecOutcome.err

/-- The persisted artifact of `save_index` / `load_index`: the raw vector
array (`np.savez`/`np.load` round binary float data exactly). -/
structure SavedFile where
  embeddings : List (List ℚ)
deriving DecidableEq

/-- `MediaRecommender.save_index`: serializes the embedding array. -/
def save_index (rec : Recommender) : SavedFile := ⟨rec.embeddings⟩

/-- `MediaRecommender.load_index`: restores the embedding array and refits the
kNN object on it; no comparison against the catalog size is performed. -/
def load_index (rec : Recommender) (f : SavedFile) : Recommender :=
  { rec with embeddings := f.embeddings }

/-- `MediaRecommender.build_index`, with the external sentence-embedding model
abstracted as `embed`: encode every item (a `KeyError` in the encoder aborts
the whole build) and store one vector per item. -/
def build_index (embed : String → List ℚ) (rec : Recommender) : Option Recommender :=
  match rec.items.mapM encode with
  | none => none
  | some texts => some { rec with embeddings := texts.map embed }

/-- `streamlit_app.load_recommender` after `load_data`: when a persisted file
exists, its vector count is compared with the catalog size — on a match it is
loaded, on a mismatch (or with no file) the index is rebuilt from scratch. -/
def load_recommender (embed : String → List ℚ) (items : List MediaItem)
    (persisted : Option SavedFile) : Option Recommender :=
  match persisted with
  | some f =>
    if f.embeddings.length = items.length then some (load_index ⟨items, []⟩ f)
    else build_index embed ⟨items, []⟩
  | none => build_index embed ⟨items, []⟩

/-- A minimal catalog item with a plain title and a media type. -/
def mkItem (t : String) (mt : String) : MediaItem :=
  { title := TitleVal.plain t, media_type := some mt, description := none,
    genres := none, tags := none, keywords := none }

def narutoItem : MediaItem := mkItem "naruto" "anime"

def namelessTagItem : MediaItem :=
  { title := TitleVal.missing, media_type := none, description := none,
    genres := none, tags := some [⟨none, some 90, some "d"⟩], keywords := none }

def sparseItem : MediaItem :=
  { title := TitleVal.missing, media_type := none, description := none,
    genres := none, tags := some [⟨some "t", none, none⟩], keywords := none }

def richItem : MediaItem :=
  { title := TitleVal.plain "x", media_type := some "anime",
    description := some "<i>Hello</i> world",
    genres := some ["Action", "Drama"],
    tags := some [⟨some "Tag", some 85, some "td"⟩, ⟨some "Mid", some 70, some "md"⟩,
                  ⟨some "Low", none, none⟩],
    keywords := some ["kw"] }

/-- A built five-item catalog: two anime, two manga, one movie. -/
def rcFive : Recommender :=
  { items := [mkItem "a0" "anime", mkItem "a1" "anime", mkItem "m0" "manga",
      mkItem "m1" "manga", mkItem "v0" "movie"],
    embeddings := [[1, 0], [0, 1], [1, 0], [0, 1], [1, 1]] }

def rcFiveRes : RecResult :=
  ⟨mkItem "a0" "anime", [(mkItem "a1" "anime", 0)],
    [(mkItem "m0" "manga", 1), (mkItem "m1" "manga", 0)], [(mkItem "v0" "movie", 1)]⟩

/-- A catalog containing an item of an unrecognized media type. -/
def rcUnknown : Recommender :=
  { items := [mkItem "a" "anime", mkItem "p" "podcast", mkItem "v" "movie"],
    embeddings := [[1, 0], [1, 0], [1, 0]] }

def rcUnknownRes : RecResult := ⟨mkItem "a" "anime", [], [], [(mkItem "v" "movie", 1)]⟩

def soloItem : MediaItem := mkItem "a" "anime"

/-- A persisted index of two vectors, stale against a one-item catalog. -/
def twoVectorFile : SavedFile := ⟨[[1, 0], [0, 1]]⟩

/-- There is an item at position `j` satisfying the search predicate. -/
def predAt (items : List MediaItem) (p : MediaItem → Bool) (j : Nat) : Prop :=
  ∃ it, items.get? j = some it ∧ p it = true

/-- Position `j` holds an exact (lowercased) title match for `ql`. -/
def exactAt (items : List MediaItem) (ql : String) (j : Nat) : Prop :=
  predAt items (fun it => strLower (get_title it) == ql) j

/-- Position `j` holds a title containing `ql` as a substring (lowercased). -/
def subAt (items : List MediaItem) (ql : String) (j : Nat) : Prop :=
  predAt items (fun it => strContains (strLower (get_title it)) ql) j

theorem firstIdxFrom_shift (p : MediaItem → Bool) :
    ∀ (l : List MediaItem) (k : Nat),
      firstIdxFrom p l (k + 1) = (firstIdxFrom p l k).map (fun x => x + 1) := by
  intro l
  induction l with
  | nil => intro k; rfl
  | cons it rest ih =>
    intro k
    by_cases hp : p it <;> simp [firstIdxFrom, hp, ih (k + 1)]

theorem firstIdx_some_iff (p : MediaItem → Bool) :
    ∀ (items : List MediaItem) (i : Nat),
      firstIdxFrom p items 0 = some i ↔
        (predAt items p i ∧ ∀ j, j < i → ¬ predAt items p j) := by
  intro items
  induction items with
  | nil =>
    intro i
    simp [firstIdxFrom, predAt]
  | cons it rest ih =>
    intro i
    by_cases hp : p it
    · constructor
      · intro h
        simp only [firstIdxFrom, hp, if_pos, Option.some.injEq] at h
        subst h
        refine ⟨⟨it, rfl, hp⟩, ?_⟩
        intro j hj
        omega
      · rintro ⟨hat, hmin⟩
        cases i with
        | zero => simp [firstIdxFrom, hp]
        | succ m =>
          exfalso
          exact hmin 0 (Nat.succ_pos m) ⟨it, rfl, hp⟩
    · have hstep : firstIdxFrom p (it :: rest) 0 =
          (firstIdxFrom p rest 0).map (fun x => x + 1) := by
        simp [firstIdxFrom, hp, firstIdxFrom_shift p rest 0]
      rw [hstep]
      cases i with
      | zero =>
        constructor
        · intro h
          rcases Option.map_eq_some'.mp h with ⟨m, _, hm⟩
          omega
        · rintro ⟨⟨it', hget, hp'⟩, _⟩
          simp only [List.get?_cons_zero, Option.some.injEq] at hget
          subst hget
          exact absurd hp' hp
      | succ m =>
        constructor
        · intro h
          rcases Option.map_eq_some'.mp h with ⟨m', hm', heq⟩
          have hmm : m' = m := by omega
          subst hmm
          rcases (ih m').mp hm' with ⟨hat, hmin⟩
          refine ⟨?_, ?_⟩
          · rcases hat with ⟨it', hget, hp'⟩
            exact ⟨it', by simpa using hget, hp'⟩
          · intro j hj
            cases j with
            | zero =>
              rintro ⟨it', hget, hp'⟩
              simp only [List.get?_cons_zero, Option.some.injEq] at hget
              subst hget
              exact absurd hp' hp
            | succ j' =>
              rintro ⟨it', hget, hp'⟩
              simp only [List.get?_cons_succ] at hget
              exact hmin j' (by omega) ⟨it', hget, hp'⟩
        · rintro ⟨hat, hmin⟩
          have hat' : predAt rest p m := by
            rcases hat with ⟨it', hget, hp'⟩
            simp only [List.get?_cons_succ] at hget
            exact ⟨it', hget, hp'⟩
          have hmin' : ∀ j, j < m → ¬ predAt rest p j := by
            intro j hj
            rintro ⟨it', hget, hp'⟩
            exact hmin (j + 1) (by omega) ⟨it', by simpa using hget, hp'⟩
          rw [(ih m).mpr ⟨hat', hmin'⟩]
          rfl

theorem firstIdx_none_iff (p : MediaItem → Bool) :
    ∀ (items : List MediaItem),
      firstIdxFrom p items 0 = none ↔ ∀ j, ¬ predAt items p j := by
  intro items
  cases hfi : firstIdxFrom p items 0 with
  | some i =>
    simp only [reduceCtorEq, false_iff, not_forall, not_not]
    rcases (firstIdx_some_iff p items i).mp hfi with ⟨hat, _⟩
    exact ⟨i, hat⟩
  | none =>
    simp only [true_iff]
    intro j hat
    rcases hat with ⟨it, hget, hp⟩
    have hlt : j < items.length := (List.get?_eq_some.mp hget).1
    by_contra
    revert hfi
    induction items generalizing j with
    | nil => simp at hlt
    | cons it0 rest ih =>
      intro hfi
      by_cases hp0 : p it0
      · simp [firstIdxFrom, hp0] at hfi
      · rw [show firstIdxFrom p (it0 :: rest) 0 =
            (firstIdxFrom p rest 0).map (fun x => x + 1) by
              simp [firstIdxFrom, hp0, firstIdxFrom_shift p rest 0]] at hfi
        cases j with
        | zero =>
          simp only [List.get?_cons_zero, Option.some.injEq] at hget
          subst hget
          exact absurd hp hp0
        | succ j' =>
          simp only [List.get?_cons_succ] at hget
          have hlt' : j' < rest.length := (List.get?_eq_some.mp hget).1
          exact ih j' hget hlt' (Option.map_eq_none'.mp hfi)

theorem neighborPairs_length (embs : List (List ℚ)) (x : List ℚ) :
    (neighborPairs embs x).length = embs.length := by
  simp [neighborPairs]

theorem neighborPairs_pairwise_fst (embs : List (List ℚ)) (x : List ℚ) :
    (neighborPairs embs x).Pairwise (fun a b => a.1 < b.1) := by
  unfold neighborPairs
  rw [List.pairwise_map]
  exact List.pairwise_lt_range embs.length

theorem mem_neighborPairs (embs : List (List ℚ)) (x : List ℚ) (p : Nat × ℚ)
    (h : p ∈ neighborPairs embs x) :
    p.1 < embs.length ∧ p.2 = 1 - dotQ x (embs.getD p.1 []) := by
  unfold neighborPairs at h
  rcases List.mem_map.mp h with ⟨i, hi, heq⟩
  have hilt : i < embs.length := List.mem_range.mp hi
  subst heq
  exact ⟨hilt, rfl⟩

theorem queryIndex_sorted_le (embs : List (List ℚ)) (x : List ℚ) (k : Nat) :
    (queryIndex embs x k).Pairwise distIdxLe := by
  unfold queryIndex
  exact List.Pairwise.sublist (List.take_sublist _ _)
    (List.sorted_insertionSort distIdxLe (neighborPairs embs x))

theorem queryIndex_fst_ne (embs : List (List ℚ)) (x : List ℚ) (k : Nat) :
    (queryIndex embs x k).Pairwise (fun a b : Nat × ℚ => a.1 ≠ b.1) := by
  unfold queryIndex
  apply List.Pairwise.sublist (List.take_sublist _ _)
  rw [List.Perm.pairwise_iff (fun h h2 => h h2.symm)
    (List.perm_insertionSort distIdxLe (neighborPairs embs x))]
  exact (neighborPairs_pairwise_fst embs x).imp (fun h => Nat.ne_of_lt h)

theorem mem_queryIndex (embs : List (List ℚ)) (x : List ℚ) (k : Nat) (p : Nat × ℚ)
    (h : p ∈ queryIndex embs x k) :
    p.1 < embs.length ∧ p.2 = 1 - dotQ x (embs.getD p.1 []) := by
  apply mem_neighborPairs embs x
  apply (List.perm_insertionSort distIdxLe (neighborPairs embs x)).mem_iff.mp
  exact List.mem_of_mem_take h

theorem queryIndex_length (embs : List (List ℚ)) (x : List ℚ) (k : Nat) :
    (queryIndex embs x k).length = min k embs.length := by
  unfold queryIndex
  rw [List.length_take]
  rw [(List.perm_insertionSort distIdxLe (neighborPairs embs x)).length_eq]
  rw [neighborPairs_length]
  omega

/-- The guarantees of a finished bucket: bounded by the per-type limit, ordered
by descending similarity, and containing only items of its media type. -/
def BucketFinal (n : Nat) (mt : String) (l : List (MediaItem × ℚ)) : Prop :=
  l.length ≤ n ∧ l.Pairwise (fun a b => b.2 ≤ a.2) ∧
    ∀ p ∈ l, p.1.media_type.getD "unknown" = mt

/-- Loop invariant for one bucket while `rest` neighbors remain: the final
guarantees plus a lower bound of every stored similarity against every
remaining neighbor's similarity. -/
def BucketOk (n : Nat) (rest : List (Nat × ℚ)) (mt : String)
    (l : List (MediaItem × ℚ)) : Prop :=
  BucketFinal n mt l ∧ ∀ p ∈ l, ∀ q ∈ rest, 1 - q.2 ≤ p.2

theorem bucketOk_nil (n : Nat) (rest : List (Nat × ℚ)) (mt : String) :
    BucketOk n rest mt [] := by
  refine ⟨⟨by simp, by simp, by simp⟩, by simp⟩

theorem bucketOk_tail (n : Nat) (q : Nat × ℚ) (rest : List (Nat × ℚ)) (mt : String)
    (l : List (MediaItem × ℚ)) (h : BucketOk n (q :: rest) mt l) :
    BucketOk n rest mt l := by
  refine ⟨h.1, ?_⟩
  intro p hp q' hq'
  exact h.2 p hp q' (by simp [hq'])

theorem bucketOk_push (n i : Nat) (d : ℚ) (rest : List (Nat × ℚ)) (mt : String)
    (l : List (MediaItem × ℚ)) (item : MediaItem)
    (hok : BucketOk n ((i, d) :: rest) mt l)
    (hmt : item.media_type.getD "unknown" = mt)
    (hsorted : ∀ q ∈ rest, d ≤ q.2) :
    BucketOk n rest mt (if l.length < n then l ++ [(item, 1 - d)] else l) := by
  by_cases hlen : l.length < n
  · rw [if_pos hlen]
    obtain ⟨⟨hb, hpw, hty⟩, hlow⟩ := hok
    refine ⟨⟨?_, ?_, ?_⟩, ?_⟩
    · simp only [List.length_append, List.length_cons, List.length_nil]
      omega
    · rw [List.pairwise_append]
      refine ⟨hpw, by simp, ?_⟩
      intro a ha b hb2
      simp only [List.mem_singleton] at hb2
      subst hb2
      exact hlow a ha (i, d) (by simp)
    · intro p hp
      rcases List.mem_append.mp hp with hp1 | hp2
      · exact hty p hp1
      · simp only [List.mem_singleton] at hp2
        subst hp2
        exact hmt
    · intro p hp q hq
      rcases List.mem_append.mp hp with hp1 | hp2
      · exact hlow p hp1 q (by simp [hq])
      · simp only [List.mem_singleton] at hp2
        subst hp2
        have := hsorted q hq
        simp only
        linarith
  · rw [if_neg hlen]
    exact bucketOk_tail n (i, d) rest mt l hok

theorem groupLoop_props (items : List MediaItem) (idx nPerType : Nat) :
    ∀ (neighbors : List (Nat × ℚ)) (b res : Buckets),
      neighbors.Pairwise distIdxLe →
      BucketOk nPerType neighbors "anime" b.anime →
      BucketOk nPerType neighbors "manga" b.manga →
      BucketOk nPerType neighbors "movie" b.movie →
      groupLoop items idx nPerType neighbors b = some res →
      BucketFinal nPerType "anime" res.anime ∧
      BucketFinal nPerType "manga" res.manga ∧
      BucketFinal nPerType "movie" res.movie := by
  intro neighbors
  induction neighbors with
  | nil =>
    intro b res _ ha hm hv h
    simp only [groupLoop, Option.some.injEq] at h
    subst h
    exact ⟨ha.1, hm.1, hv.1⟩
  | cons q rest ih =>
    obtain ⟨i, d⟩ := q
    intro b res hs ha hm hv h
    have hs' : rest.Pairwise distIdxLe := (List.pairwise_cons.mp hs).2
    have hhead : ∀ q' ∈ rest, d ≤ q'.2 := by
      intro q' hq'
      rcases (List.pairwise_cons.mp hs).1 q' hq' with hlt | ⟨heq, _⟩
      · exact le_of_lt hlt
      · exact le_of_eq heq
    by_cases hidx : i = idx
    · simp only [groupLoop, if_pos hidx] at h
      exact ih b res hs' (bucketOk_tail _ _ _ _ _ ha) (bucketOk_tail _ _ _ _ _ hm)
        (bucketOk_tail _ _ _ _ _ hv) h
    · cases hget : items[i]? with
      | none => simp [groupLoop, if_neg hidx, hget] at h
      | some item =>
        simp only [groupLoop, if_neg hidx, List.get?_eq_getElem?, hget] at h
        set mt := item.media_type.getD "unknown" with hmt
        have hb2 : BucketOk nPerType rest "anime"
              (addToBuckets b mt item (1 - d) nPerType).anime ∧
            BucketOk nPerType rest "manga"
              (addToBuckets b mt item (1 - d) nPerType).manga ∧
            BucketOk nPerType rest "movie"
              (addToBuckets b mt item (1 - d) nPerType).movie := by
          by_cases h1 : mt = "anime"
          · have hpush := bucketOk_push nPerType i d rest "anime" b.anime item ha
              (hmt.symm.trans h1) hhead
            by_cases hlen : b.anime.length < nPerType
            · rw [if_pos hlen] at hpush
              simp only [addToBuckets, if_pos h1, if_pos hlen]
              exact ⟨hpush, bucketOk_tail _ _ _ _ _ hm, bucketOk_tail _ _ _ _ _ hv⟩
            · rw [if_neg hlen] at hpush
              simp only [addToBuckets, if_pos h1, if_neg hlen]
              exact ⟨hpush, bucketOk_tail _ _ _ _ _ hm, bucketOk_tail _ _ _ _ _ hv⟩
          · by_cases h2 : mt = "manga"
            · have hpush := bucketOk_push nPerType i d rest "manga" b.manga item hm
                (hmt.symm.trans h2) hhead
              by_cases hlen : b.manga.length < nPerType
              · rw [if_pos hlen] at hpush
                simp only [addToBuckets, if_neg h1, if_pos h2, if_pos hlen]
                exact ⟨bucketOk_tail _ _ _ _ _ ha, hpush, bucketOk_tail _ _ _ _ _ hv⟩
              · rw [if_neg hlen] at hpush
                simp only [addToBuckets, if_neg h1, if_pos h2, if_neg hlen]
                exact ⟨bucketOk_tail _ _ _ _ _ ha, hpush, bucketOk_tail _ _ _ _ _ hv⟩
            · by_cases h3 : mt = "movie"
              · have hpush := bucketOk_push nPerType i d rest "movie" b.movie item hv
                  (hmt.symm.trans h3) hhead
                by_cases hlen : b.movie.length < nPerType
                · rw [if_pos hlen] at hpush
                  simp only [addToBuckets, if_neg h1, if_neg h2, if_pos h3, if_pos hlen]
                  exact ⟨bucketOk_tail _ _ _ _ _ ha, bucketOk_tail _ _ _ _ _ hm, hpush⟩
                · rw [if_neg hlen] at hpush
                  simp only [addToBuckets, if_neg h1, if_neg h2, if_pos h3, if_neg hlen]
                  exact ⟨bucketOk_tail _ _ _ _ _ ha, bucketOk_tail _ _ _ _ _ hm, hpush⟩
              · simp only [addToBuckets, if_neg h1, if_neg h2, if_neg h3]
                exact ⟨bucketOk_tail _ _ _ _ _ ha, bucketOk_tail _ _ _ _ _ hm,
                  bucketOk_tail _ _ _ _ _ hv⟩
        obtain ⟨ha2, hm2, hv2⟩ := hb2
        by_cases hdone : bucketsDone (addToBuckets b mt item (1 - d) nPerType) nPerType = true
        · rw [if_pos hdone] at h
          cases h
          exact ⟨ha2.1, hm2.1, hv2.1⟩
        · rw [if_neg hdone] at h
          exact ih _ res hs' ha2 hm2 hv2 h

theorem groupLoop_total (items : List MediaItem) (idx nPerType : Nat) :
    ∀ (neighbors : List (Nat × ℚ)) (b : Buckets),
      (∀ p ∈ neighbors, p.1 < items.length) →
      ∃ res, groupLoop items idx nPerType neighbors b = some res := by
  intro neighbors
  induction neighbors with
  | nil => intro b _; exact ⟨b, rfl⟩
  | cons q rest ih =>
    obtain ⟨i, d⟩ := q
    intro b hbound
    by_cases hidx : i = idx
    · rcases ih b (fun p hp => hbound p (by simp [hp])) with ⟨res, hres⟩
      exact ⟨res, by simp only [groupLoop, if_pos hidx]; exact hres⟩
    · have hilt : i < items.length := hbound (i, d) (by simp)
      have hget : items[i]? = some items[i] := List.getElem?_eq_getElem hilt
      set item := items[i] with hitem
      set b2 := addToBuckets b (item.media_type.getD "unknown") item (1 - d) nPerType with hb2
      have hred : groupLoop items idx nPerType ((i, d) :: rest) b =
          if bucketsDone b2 nPerType = true then some b2
          else groupLoop items idx nPerType rest b2 := by
        simp only [groupLoop, if_neg hidx, List.get?_eq_getElem?, hget, hb2]
      by_cases hdone : bucketsDone b2 nPerType = true
      · exact ⟨b2, by rw [hred, if_pos hdone]⟩
      · rcases ih b2 (fun p hp => hbound p (by simp [hp])) with ⟨res, hres⟩
        exact ⟨res, by rw [hred, if_neg hdone]; exact hres⟩

theorem firstIdx_lt (p : MediaItem → Bool) (items : List MediaItem) (i : Nat)
    (h : firstIdxFrom p items 0 = some i) : i < items.length := by
  rcases (firstIdx_some_iff p items i).mp h with ⟨⟨it, hget, _⟩, _⟩
  exact (List.get?_eq_some.mp hget).1

theorem find_item_lt (items : List MediaItem) (t : String) (i : Nat)
    (h : find_item items t = some i) : i < items.length := by
  simp only [find_item] at h
  cases h1 : firstIdxFrom (fun it => strLower (get_title it) == strTrim (strLower t)) items 0 with
  | some j =>
    rw [h1] at h
    simp only [Option.some.injEq] at h
    subst h
    exact firstIdx_lt _ items j h1
  | none =>
    rw [h1] at h
    exact firstIdx_lt _ items i h

theorem recommend_ok_buckets (rec : Recommender) (title : String) (n : Nat) (res : RecResult)
    (h : recommend rec title n = RecOutcome.ok res) :
    BucketFinal n "anime" res.anime ∧ BucketFinal n "manga" res.manga ∧
      BucketFinal n "movie" res.movie := by
  cases hfi : find_item rec.items title with
  | none => simp [recommend, hfi] at h
  | some idx =>
    cases hi : rec.items[idx]? with
    | none => simp [recommend, hfi, List.get?_eq_getElem?, hi] at h
    | some source =>
      cases he : rec.embeddings[idx]? with
      | none => simp [recommend, hfi, List.get?_eq_getElem?, hi, he] at h
      | some x =>
        simp only [recommend, hfi, List.get?_eq_getElem?, hi, he] at h
        cases hgl : groupLoop rec.items idx n
            (queryIndex rec.embeddings x (min rec.items.length 200)) ⟨[], [], []⟩ with
        | none => rw [hgl] at h; cases h
        | some b =>
          rw [hgl] at h
          simp only [RecOutcome.ok.injEq] at h
          subst h
          have hprops := groupLoop_props rec.items idx n
            (queryIndex rec.embeddings x (min rec.items.length 200)) ⟨[], [], []⟩ b
            (queryIndex_sorted_le rec.embeddings x (min rec.items.length 200))
            (bucketOk_nil n _ "anime") (bucketOk_nil n _ "manga") (bucketOk_nil n _ "movie")
            hgl
          exact hprops

theorem recommend_ok_of_found (rec : Recommender) (title : String) (n idx : Nat)
    (hlen : rec.embeddings.length = rec.items.length)
    (hfi : find_item rec.items title = some idx) :
    ∃ res, recommend rec title n = RecOutcome.ok res := by
  have hidxlt : idx < rec.items.length := find_item_lt rec.items title idx hfi
  have hidxe : idx < rec.embeddings.length := by omega
  have hi : rec.items[idx]? = some rec.items[idx] := List.getElem?_eq_getElem hidxlt
  have he : rec.embeddings[idx]? = some rec.embeddings[idx] :=
    List.getElem?_eq_getElem hidxe
  obtain ⟨resb, hgl⟩ := groupLoop_total rec.items idx n
    (queryIndex rec.embeddings rec.embeddings[idx] (min rec.items.length 200)) ⟨[], [], []⟩
    (by
      intro p hp
      have hb := (mem_queryIndex rec.embeddings rec.embeddings[idx]
        (min rec.items.length 200) p hp).1
      omega)
  refine ⟨⟨rec.items[idx], resb.anime, resb.manga, resb.movie⟩, ?_⟩
  simp only [recommend, hfi, List.get?_eq_getElem?, hi, he, hgl]

theorem flatMap_pair_eq (l : List String) :
    l.flatMap (fun s => [s, s]) = (l.map (fun s => List.replicate 2 s)).flatten := by
  induction l with
  | nil => rfl
  | cons a l ih => simp [ih, List.replicate]

/-- C1: for every tag (with its name present), the text encoder contributes the
tag's name exactly 3 times plus its description once when its rank (defaulting
to 50 when absent) is at least 80; exactly 2 times with no description when the
rank is at least 60 and below 80; and exactly once when the rank is below 60. -/
theorem tag_contribution_matches_rank_tiers (t : MTag) (n : String) (h : t.name = some n) :
    tagLoopParts t = some (tagContribSpec n (t.rank.getD 50) (t.description.getD "")) :=
  tagLoopParts_spec t n h

theorem tag_contribution_matches_rank_tiers_witness :
    tagLoopParts ⟨some "t", some 85, some "d"⟩ = some ["t", "t", "t", "d"] ∧
    tagLoopParts ⟨some "t", some 70, some "d"⟩ = some ["t", "t"] ∧
    tagLoopParts ⟨some "t", some 10, some "d"⟩ = some ["t"] ∧
    tagLoopParts ⟨some "t", none, some "d"⟩ = some ["t"] :=
  ⟨(tag_contribution_matches_rank_tiers ⟨some "t", some 85, some "d"⟩ "t" rfl).trans (by decide),
   (tag_contribution_matches_rank_tiers ⟨some "t", some 70, some "d"⟩ "t" rfl).trans (by decide),
   (tag_contribution_matches_rank_tiers ⟨some "t", some 10, some "d"⟩ "t" rfl).trans (by decide),
   (tag_contribution_matches_rank_tiers ⟨some "t", none, some "d"⟩ "t" rfl).trans (by decide)⟩

/-- C2: for every vector `x` and every `k`, the index query returns exactly
`min k (indexed count)` entries — a `k` beyond the indexed count is capped, not
an error — ordered by strictly ascending `(distance, catalog index)` with
`distance = 1 - dot x vᵢ`. -/
theorem queryIndex_capped_sorted_distances (embs : List (List ℚ)) (x : List ℚ) (k : Nat) :
    (queryIndex embs x k).length = min k embs.length ∧
    (queryIndex embs x k).Pairwise (fun a b => a.2 < b.2 ∨ (a.2 = b.2 ∧ a.1 < b.1)) ∧
    ∀ p ∈ queryIndex embs x k, p.1 < embs.length ∧ p.2 = 1 - dotQ x (embs.getD p.1 []) := by
  refine ⟨queryIndex_length embs x k, ?_, fun p hp => mem_queryIndex embs x k p hp⟩
  have h3 := (queryIndex_sorted_le embs x k).and (queryIndex_fst_ne embs x k)
  refine h3.imp ?_
  intro a b hab
  obtain ⟨hle, hne⟩ := hab
  rcases hle with h | ⟨heq, hle2⟩
  · exact Or.inl h
  · exact Or.inr ⟨heq, lt_of_le_of_ne hle2 hne⟩

/-- C3: every bucket of a successful `recommend` holds at most `nPerType`
pairs, ordered by descending similarity; buckets shorter than the limit
(including empty ones) are returned through the normal `ok` result, not an
error. -/
theorem recommend_buckets_bounded_and_descending (rec : Recommender) (title : String)
    (n : Nat) (res : RecResult) (h : recommend rec title n = RecOutcome.ok res) :
    (res.anime.length ≤ n ∧ res.anime.Pairwise (fun a b => b.2 ≤ a.2)) ∧
    (res.manga.length ≤ n ∧ res.manga.Pairwise (fun a b => b.2 ≤ a.2)) ∧
    (res.movie.length ≤ n ∧ res.movie.Pairwise (fun a b => b.2 ≤ a.2)) := by
  obtain ⟨⟨ha1, ha2, _⟩, ⟨hm1, hm2, _⟩, ⟨hv1, hv2, _⟩⟩ :=
    recommend_ok_buckets rec title n res h
  exact ⟨⟨ha1, ha2⟩, ⟨hm1, hm2⟩, ⟨hv1, hv2⟩⟩

theorem recommend_buckets_bounded_and_descending_witness :
    recommend rcFive "a0" 3 = RecOutcome.ok rcFiveRes ∧
    ((rcFiveRes.anime.length ≤ 3 ∧ rcFiveRes.anime.Pairwise (fun a b => b.2 ≤ a.2)) ∧
     (rcFiveRes.manga.length ≤ 3 ∧ rcFiveRes.manga.Pairwise (fun a b => b.2 ≤ a.2)) ∧
     (rcFiveRes.movie.length ≤ 3 ∧ rcFiveRes.movie.Pairwise (fun a b => b.2 ≤ a.2))) :=
  ⟨by decide, recommend_buckets_bounded_and_descending rcFive "a0" 3 rcFiveRes (by decide)⟩

/-- C4 (amended): title lookup lowercases the query and strips its surrounding
whitespace, then is two-phase and case-insensitive — phase 1 returns the
earliest catalog index whose lowercased resolved title equals the processed
query; only when no exact match exists does phase 2 return the earliest index
whose lowercased title contains the processed query as a substring; `none` when
both phases fail. -/
theorem find_item_two_phase_characterization (items : List MediaItem) (q : String) :
    (∀ i, find_item items q = some i ↔
      ((exactAt items (strTrim (strLower q)) i ∧
          ∀ j, j < i → ¬ exactAt items (strTrim (strLower q)) j) ∨
       ((∀ j, ¬ exactAt items (strTrim (strLower q)) j) ∧
          subAt items (strTrim (strLower q)) i ∧
          ∀ j, j < i → ¬ subAt items (strTrim (strLower q)) j))) ∧
    (find_item items q = none ↔
      (∀ j, ¬ exactAt items (strTrim (strLower q)) j) ∧
      (∀ j, ¬ subAt items (strTrim (strLower q)) j)) := by
  constructor
  · intro i
    simp only [find_item]
    cases hfe : firstIdxFrom (fun it => strLower (get_title it) == strTrim (strLower q))
        items 0 with
    | some e =>
      have he := (firstIdx_some_iff _ items e).mp hfe
      constructor
      · intro h
        simp only [Option.some.injEq] at h
        subst h
        exact Or.inl he
      · intro h
        rcases h with ⟨hat, hmin⟩ | ⟨hno, _, _⟩
        · rcases he with ⟨hate, hmine⟩
          rcases Nat.lt_trichotomy i e with hlt | heq | hgt
          · exact absurd hat (hmine i hlt)
          · simp [heq]
          · exact absurd hate (hmin e hgt)
        · exact absurd he.1 (hno e)
    | none =>
      have hnone := (firstIdx_none_iff _ items).mp hfe
      constructor
      · intro h
        exact Or.inr ⟨hnone, (firstIdx_some_iff _ items i).mp h⟩
      · intro h
        rcases h with ⟨hat, _⟩ | ⟨_, hsub, hmin⟩
        · exact absurd hat (hnone i)
        · exact (firstIdx_some_iff _ items i).mpr ⟨hsub, hmin⟩
  · simp only [find_item]
    cases hfe : firstIdxFrom (fun it => strLower (get_title it) == strTrim (strLower q))
        items 0 with
    | some e =>
      have he := (firstIdx_some_iff _ items e).mp hfe
      simp only [reduceCtorEq, false_iff]
      intro hcon
      exact hcon.1 e he.1
    | none =>
      have hnone := (firstIdx_none_iff _ items).mp hfe
      rw [firstIdx_none_iff]
      constructor
      · intro h
        exact ⟨hnone, h⟩
      · intro h
        exact h.2

/-- C4 counterexample: the claim omits the whitespace stripping that
`find_item` applies to the query.  On the one-item catalog `["naruto"]` and
query `"naruto "` (trailing space), the claim's unstripped two-phase lookup
(`titleLookupClaim`, modelled from the spec's words) finds nothing — neither
exact equality nor substring containment holds — yet `find_item` returns
index 0. -/
theorem find_item_strips_query_cex :
    find_item [narutoItem] "naruto " = some 0 ∧
    titleLookupClaim [narutoItem] "naruto " = none := by
  constructor
  · decide
  · decide

/-- C5 (amended): the text encoder is total on every item whose tags each
carry a name — any combination of the optional fields `genres`, `tags`,
`keywords`, `description` may be absent, and tags may lack `rank` or
`description`; a tag lacking `name` makes the encoder fail. -/
theorem encode_total_when_tags_named (item : MediaItem)
    (h : ∀ t ∈ item.tags.getD [], t.name ≠ none) :
    ∃ s, encode item = some s := by
  simp only [encode, encodeTags_spec _ h]
  exact ⟨_, rfl⟩

theorem encode_total_when_tags_named_witness :
    (∀ t ∈ sparseItem.tags.getD [], t.name ≠ none) ∧ ∃ s, encode sparseItem = some s :=
  ⟨by decide, encode_total_when_tags_named sparseItem (by decide)⟩

/-- C5 counterexample: a tag whose `name` key is absent makes the encoder fail
(`tag["name"]` raises `KeyError` in the source), refuting totality for
arbitrary missing tag sub-fields. -/
theorem encode_fails_on_nameless_tag_cex : encode namelessTagItem = none := by decide

/-- C9: the encoder output is, in this fixed order and preserving each source
list's order, every genre twice, the rank-weighted tag contributions, every
keyword twice, then the markup-stripped description truncated to 200
characters (appended once when a description is present), joined with `" . "`. -/
theorem encode_output_fixed_order (item : MediaItem)
    (h : ∀ t ∈ item.tags.getD [], t.name ≠ none) :
    encode item = some (String.intercalate " . "
      (specGenreTokens item ++ specTagTokens item ++
        specKeywordTokens item ++ specDescTokens item)) := by
  simp only [encode, encodeTags_spec _ h, specGenreTokens, specTagTokens,
    specKeywordTokens, specDescTokens, flatMap_pair_eq]

theorem encode_output_fixed_order_witness :
    (∀ t ∈ richItem.tags.getD [], t.name ≠ none) ∧
    encode richItem = some (String.intercalate " . "
      (specGenreTokens richItem ++ specTagTokens richItem ++
        specKeywordTokens richItem ++ specDescTokens richItem)) :=
  ⟨by decide, encode_output_fixed_order richItem (by decide)⟩

/-- C6: building, persisting, restoring, and then querying yields results
identical in content and order to querying the original non-persisted index —
both for the raw nearest-neighbor query and for the full grouped
recommendation (persistence stores the raw vector array exactly). -/
theorem persist_restore_query_roundtrip (rec : Recommender) (x : List ℚ) (k : Nat)
    (title : String) (n : Nat) :
    queryIndex (load_index rec (save_index rec)).embeddings x k =
      queryIndex rec.embeddings x k ∧
    recommend (load_index rec (save_index rec)) title n = recommend rec title n :=
  ⟨rfl, rfl⟩

/-- C7 (amended): only the streamlit loader checks staleness — when the
persisted vector count differs from the catalog size it discards the file and
rebuilds the index from the catalog before any query; `load_index` itself
performs no count check, and a query against a mismatched loaded index may be
answered normally rather than rejected. -/
theorem stale_persisted_index_discarded_rebuilt (embed : String → List ℚ)
    (items : List MediaItem) (f : SavedFile)
    (h : f.embeddings.length ≠ items.length) :
    load_recommender embed items (some f) = build_index embed ⟨items, []⟩ := by
  simp [load_recommender, h]

theorem stale_persisted_index_discarded_rebuilt_witness :
    twoVectorFile.embeddings.length ≠ [soloItem].length ∧
    load_recommender (fun s => [(1 : ℚ)]) [soloItem] (some twoVectorFile) =
      build_index (fun s => [(1 : ℚ)]) ⟨[soloItem], []⟩ :=
  ⟨by decide,
   stale_persisted_index_discarded_rebuilt (fun s => [(1 : ℚ)]) [soloItem] twoVectorFile
     (by decide)⟩

/-- C7 counterexample: `load_index` compares nothing, and a query against the
resulting stale index is answered, not rejected — a two-vector persisted file
loaded against a one-item catalog yields an index the code happily queries,
returning the normal grouped result (with empty buckets). -/
theorem stale_loaded_index_query_answered_cex :
    twoVectorFile.embeddings.length ≠ [soloItem].length ∧
    recommend (load_index ⟨[soloItem], []⟩ twoVectorFile) "a" 1 =
      RecOutcome.ok ⟨soloItem, [], [], []⟩ := by
  constructor
  · decide
  · decide

/-- C8: with a built index (one vector per item), `recommend` reports
not-found exactly when title lookup resolves the query to nothing, and
whenever lookup succeeds it returns a grouped result. -/
theorem recommend_notFound_iff_lookup_fails (rec : Recommender) (title : String) (n : Nat)
    (hlen : rec.embeddings.length = rec.items.length) :
    (recommend rec title n = RecOutcome.notFound ↔ find_item rec.items title = none) ∧
    (∀ idx, find_item rec.items title = some idx →
      ∃ res, recommend rec title n = RecOutcome.ok res) := by
  constructor
  · constructor
    · intro h
      cases hfi : find_item rec.items title with
      | none => rfl
      | some idx =>
        obtain ⟨res, hres⟩ := recommend_ok_of_found rec title n idx hlen hfi
        rw [h] at hres
        cases hres
    · intro h
      simp [recommend, h]
  · intro idx hfi
    exact recommend_ok_of_found rec title n idx hlen hfi

theorem recommend_notFound_iff_lookup_fails_witness :
    rcFive.embeddings.length = rcFive.items.length ∧
    (recommend rcFive "zzz" 3 = RecOutcome.notFound ↔
      find_item rcFive.items "zzz" = none) :=
  ⟨by decide, (recommend_notFound_iff_lookup_fails rcFive "zzz" 3 (by decide)).1⟩

/-- C10: every pair in a bucket of a successful `recommend` carries exactly
that bucket's media type, so a neighbor whose type is not `anime`, `manga` or
`movie` is silently skipped — it appears in no bucket, counts toward no limit,
and causes no error. -/
theorem recommend_buckets_type_pure (rec : Recommender) (title : String) (n : Nat)
    (res : RecResult) (h : recommend rec title n = RecOutcome.ok res) :
    (∀ p ∈ res.anime, p.1.media_type.getD "unknown" = "anime") ∧
    (∀ p ∈ res.manga, p.1.media_type.getD "unknown" = "manga") ∧
    (∀ p ∈ res.movie, p.1.media_type.getD "unknown" = "movie") := by
  obtain ⟨⟨_, _, ha⟩, ⟨_, _, hm⟩, ⟨_, _, hv⟩⟩ := recommend_ok_buckets rec title n res h
  exact ⟨ha, hm, hv⟩

theorem recommend_buckets_type_pure_witness :
    recommend rcUnknown "a" 2 = RecOutcome.ok rcUnknownRes ∧
    ((∀ p ∈ rcUnknownRes.anime, p.1.media_type.getD "unknown" = "anime") ∧
     (∀ p ∈ rcUnknownRes.manga, p.1.media_type.getD "unknown" = "manga") ∧
     (∀ p ∈ rcUnknownRes.movie, p.1.media_type.getD "unknown" = "movie")) :=
  ⟨by decide, recommend_buckets_type_pure rcUnknown "a" 2 rcUnknownRes (by decide)⟩
